import Mathlib

/-!
Shallow embedding of the core logic of the flight ground-time visualizer
(src/ground_time_app_with_ron_dropdown.py): the arrival-to-departure
turnaround matcher (source lines 47-66) and the per-day segmentation
branches of the plotting loop (source lines 158-193).

Timestamps are modelled as minutes since an epoch (`Nat`); a row whose
timestamp failed to parse (pandas `NaT`, produced by
`pd.to_datetime(..., errors='coerce')` on lines 40-41) is `none`.
Comparisons against `NaT` are false in pandas, which `tsLt` mirrors.
Calendar dates are day numbers: `dateOf t = t / 1440` corresponds to
`.dt.date`, and `midnightOf d = d * 1440` corresponds to
`datetime.combine(day, datetime.min.time())`.
-/

namespace GroundTime

/-- One spreadsheet row as seen by the matching loop: `idx` is the pandas
row label (`dep.name`), `ac` is `INFORM_AC`, `station` is `STATION`,
`carrier` is `AIRLINEDESIGNATOR`, and `ts` is the parsed timestamp
(`none` for `NaT`). -/
structure Row where
  idx : Nat
  ac : String
  station : String
  carrier : String
  ts : Option Nat
deriving DecidableEq, Repr

/-- One matched ground stay, mirroring the dict appended to `matched` on
source lines 58-64. -/
structure Turnaround where
  station : String
  ac : String
  carrier : String
  arrive : Option Nat
  depart : Option Nat
deriving DecidableEq, Repr

/-- Strict comparison of possibly-missing timestamps; any comparison with
`NaT` is false, as in pandas. -/
def tsLt : Option Nat → Option Nat → Bool
  | some a, some b => decide (a < b)
  | _, _ => false

/-- The eligibility filter of source lines 50-54: same `INFORM_AC`, same
`STATION`, departure strictly later than the arrival. -/
def eligibleFor (arr dep : Row) : Bool :=
  dep.ac == arr.ac && dep.station == arr.station && tsLt arr.ts dep.ts

/-- Sort key used by `sort_values('DEPART_DATE_TIME_LOCAL')`; eligible
rows always carry a `some` timestamp, so the default is never reached. -/
def key (d : Row) : Nat := d.ts.getD 0

/-- Departures sorted by timestamp, as `sort_values` on source line 54. -/
def sortByTs (l : List Row) : List Row :=
  l.insertionSort (fun a b => key a ≤ key b)

/-- The inner loop of source lines 56-57: scan the sorted eligible
departures and return the first whose row label is not yet used. -/
def findFirstUnused (used : List Nat) : List Row → Option Row
  | [] => none
  | d :: ds => if d.idx ∈ used then findFirstUnused used ds else some d

/-- Construction of the matched record on source lines 58-64: station,
aircraft, carrier and arrival time come from the arrival row, the
departure time from the claimed departure row. -/
def mkTurnaround (arr dep : Row) : Turnaround :=
  ⟨arr.station, arr.ac, arr.carrier, arr.ts, dep.ts⟩

/-- One iteration of the outer loop of source lines 49-66, threading the
`(matched, used_departures)` state through one arrival row. -/
def matchStep (deps : List Row) (st : List Turnaround × List Nat) (arr : Row) :
    List Turnaround × List Nat :=
  match findFirstUnused st.2 (sortByTs (deps.filter (eligibleFor arr))) with
  | none => st
  | some dep => (st.1 ++ [mkTurnaround arr dep], dep.idx :: st.2)

/-- The full matching pass of source lines 47-66, starting from an empty
`matched` list and an empty `used_departures` set. -/
def matchFold (arrs deps : List Row) : List Turnaround × List Nat :=
  arrs.foldl (matchStep deps) ([], [])

/-- The `matched` list produced by the matching pass. -/
def matchArrivals (arrs deps : List Row) : List Turnaround :=
  (matchFold arrs deps).1

/-- The final contents of the `used_departures` set. -/
def usedDepartures (arrs deps : List Row) : List Nat :=
  (matchFold arrs deps).2

/-- Minutes in one calendar day. -/
def minutesPerDay : Nat := 1440

/-- Calendar day of a timestamp, mirroring `.dt.date`. -/
def dateOf (t : Nat) : Nat := t / minutesPerDay

/-- Midnight starting calendar day `d`, mirroring
`datetime.combine(day, datetime.min.time())`. -/
def midnightOf (d : Nat) : Nat := d * minutesPerDay

/-- The three drawing branches of source lines 172-193. -/
inductive SegKind where
  | SAME_DAY
  | OVERNIGHT_ARRIVAL
  | OVERNIGHT_DEPARTURE
deriving DecidableEq, Repr

/-- One per-day bar: its kind and the clipped window actually drawn. -/
structure DaySegment where
  kind : SegKind
  window_start : Nat
  window_end : Nat
deriving DecidableEq, Repr

/-- The day segmenter: the `flights_today` filter of source lines 158-161
(a row is considered for day `d` only when its arrival date or departure
date equals `d`) combined with the branch cascade of lines 172-193. -/
def segmentFor (arrive depart d : Nat) : Option DaySegment :=
  if dateOf arrive = d ∧ dateOf depart = d then
    some ⟨SegKind.SAME_DAY, arrive, depart⟩
  else if dateOf arrive = d then
    some ⟨SegKind.OVERNIGHT_ARRIVAL, arrive, midnightOf (d + 1)⟩
  else if dateOf depart = d then
    some ⟨SegKind.OVERNIGHT_DEPARTURE, midnightOf d, depart⟩
  else
    none

/-! Basic lemmas about the sorted eligible list and the scan. -/

theorem mem_sortByTs {x : Row} {l : List Row} : x ∈ sortByTs l ↔ x ∈ l :=
  List.mem_insertionSort _

instance : IsTotal Row (fun a b => key a ≤ key b) :=
  ⟨fun a b => Nat.le_total (key a) (key b)⟩

instance : IsTrans Row (fun a b => key a ≤ key b) :=
  ⟨fun _ _ _ h1 h2 => Nat.le_trans h1 h2⟩

theorem sortByTs_sorted (l : List Row) :
    (sortByTs l).Sorted (fun a b => key a ≤ key b) :=
  List.sorted_insertionSort _ l

theorem findFirstUnused_eq_none {used : List Nat} :
    ∀ {l : List Row}, findFirstUnused used l = none ↔ ∀ d ∈ l, d.idx ∈ used := by
  intro l
  induction l with
  | nil => simp [findFirstUnused]
  | cons d ds ih =>
    by_cases h : d.idx ∈ used
    · simp [findFirstUnused, h, ih]
    · simp [findFirstUnused, h]

theorem findFirstUnused_spec {used : List Nat} :
    ∀ {l : List Row}, l.Sorted (fun a b => key a ≤ key b) →
      ∀ {d : Row}, findFirstUnused used l = some d →
        d ∈ l ∧ d.idx ∉ used ∧ ∀ x ∈ l, x.idx ∉ used → key d ≤ key x := by
  intro l
  induction l with
  | nil => intro _ d h; simp [findFirstUnused] at h
  | cons e es ih =>
    intro hs d h
    by_cases he : e.idx ∈ used
    · rw [findFirstUnused, if_pos he] at h
      obtain ⟨hmem, hnu, hmin⟩ := ih hs.of_cons h
      refine ⟨List.mem_cons_of_mem _ hmem, hnu, ?_⟩
      intro x hx hxu
      rcases List.mem_cons.mp hx with rfl | hx
      · exact absurd he hxu
      · exact hmin x hx hxu
    · rw [findFirstUnused, if_neg he] at h
      cases h
      refine ⟨List.mem_cons_self _ _, he, ?_⟩
      intro x hx _
      rcases List.mem_cons.mp hx with rfl | hx
      · exact Nat.le_refl _
      · exact List.rel_of_sorted_cons hs x hx

/-- Eligibility forces both timestamps to be present and strictly
ordered. -/
theorem eligibleFor_ts {arr dep : Row} (h : eligibleFor arr dep = true) :
    ∃ x y, arr.ts = some x ∧ dep.ts = some y ∧ x < y := by
  have h3 : tsLt arr.ts dep.ts = true := by
    simp [eligibleFor] at h; exact h.2
  cases ha : arr.ts with
  | none => rw [ha] at h3; simp [tsLt] at h3
  | some x =>
    cases hd : dep.ts with
    | none => rw [ha, hd] at h3; simp [tsLt] at h3
    | some y =>
      rw [ha, hd] at h3
      simp [tsLt] at h3
      exact ⟨x, y, rfl, rfl, h3⟩

/-- Eligibility forces the key fields to agree with the arrival row. -/
theorem eligibleFor_fields {arr dep : Row} (h : eligibleFor arr dep = true) :
    dep.ac = arr.ac ∧ dep.station = arr.station := by
  simp [eligibleFor] at h
  exact ⟨h.1.1, h.1.2⟩

/-! Invariants of the matching fold. -/

/-- Anything already in the `matched` list stays there for the rest of
the pass. -/
theorem foldl_matched_mono (deps : List Row) :
    ∀ (arrs : List Row) (st : List Turnaround × List Nat) (t : Turnaround),
      t ∈ st.1 → t ∈ (arrs.foldl (matchStep deps) st).1 := by
  intro arrs
  induction arrs with
  | nil => intro st t h; exact h
  | cons a tl ih =>
    intro st t h
    rw [List.foldl_cons]
    refine ih _ t ?_
    unfold matchStep
    cases findFirstUnused st.2 (sortByTs (deps.filter (eligibleFor a))) with
    | none => exact h
    | some dep => exact List.mem_append_left _ h

/-- Anything already in the `used_departures` set stays there for the
rest of the pass. -/
theorem foldl_used_mono (deps : List Row) :
    ∀ (arrs : List Row) (st : List Turnaround × List Nat) (i : Nat),
      i ∈ st.2 → i ∈ (arrs.foldl (matchStep deps) st).2 := by
  intro arrs
  induction arrs with
  | nil => intro st i h; exact h
  | cons a tl ih =>
    intro st i h
    rw [List.foldl_cons]
    refine ih _ i ?_
    unfold matchStep
    cases findFirstUnused st.2 (sortByTs (deps.filter (eligibleFor a))) with
    | none => exact h
    | some dep => exact List.mem_cons_of_mem _ h

/-- Every record in the `matched` list was built by `mkTurnaround` from
an input arrival and an eligible input departure. -/
theorem mem_foldl_matched (deps : List Row) :
    ∀ (arrs : List Row) (st : List Turnaround × List Nat) (t : Turnaround),
      t ∈ (arrs.foldl (matchStep deps) st).1 →
        t ∈ st.1 ∨ ∃ a d, a ∈ arrs ∧ d ∈ deps ∧ eligibleFor a d = true ∧
          t = mkTurnaround a d := by
  intro arrs
  induction arrs with
  | nil => intro st t h; exact Or.inl h
  | cons a tl ih =>
    intro st t h
    rw [List.foldl_cons] at h
    rcases ih _ t h with hst | ⟨a0, d0, ha0, hd0, he0, ht0⟩
    · unfold matchStep at hst
      cases hfind : findFirstUnused st.2 (sortByTs (deps.filter (eligibleFor a))) with
      | none => rw [hfind] at hst; exact Or.inl hst
      | some dep =>
        rw [hfind] at hst
        rcases List.mem_append.mp hst with hst | hst
        · exact Or.inl hst
        · obtain ⟨hmem, _, _⟩ := findFirstUnused_spec (sortByTs_sorted _) hfind
          have hd : dep ∈ deps.filter (eligibleFor a) := mem_sortByTs.mp hmem
          rcases List.mem_singleton.mp hst with rfl
          exact Or.inr ⟨a, dep, List.mem_cons_self _ _,
            List.mem_of_mem_filter hd, List.of_mem_filter hd, rfl⟩
    · exact Or.inr ⟨a0, d0, List.mem_cons_of_mem _ ha0, hd0, he0, ht0⟩

/-- Every label in the `used_departures` set is the label of an input
departure row that was eligible for some input arrival. -/
theorem mem_foldl_used (deps : List Row) :
    ∀ (arrs : List Row) (st : List Turnaround × List Nat) (i : Nat),
      i ∈ (arrs.foldl (matchStep deps) st).2 →
        i ∈ st.2 ∨ ∃ a d, a ∈ arrs ∧ d ∈ deps ∧ eligibleFor a d = true ∧
          d.idx = i := by
  intro arrs
  induction arrs with
  | nil => intro st i h; exact Or.inl h
  | cons a tl ih =>
    intro st i h
    rw [List.foldl_cons] at h
    rcases ih _ i h with hst | ⟨a0, d0, ha0, hd0, he0, hi0⟩
    · unfold matchStep at hst
      cases hfind : findFirstUnused st.2 (sortByTs (deps.filter (eligibleFor a))) with
      | none => rw [hfind] at hst; exact Or.inl hst
      | some dep =>
        rw [hfind] at hst
        rcases List.mem_cons.mp hst with rfl | hst
        · obtain ⟨hmem, _, _⟩ := findFirstUnused_spec (sortByTs_sorted _) hfind
          have hd : dep ∈ deps.filter (eligibleFor a) := mem_sortByTs.mp hmem
          exact Or.inr ⟨a, dep, List.mem_cons_self _ _,
            List.mem_of_mem_filter hd, List.of_mem_filter hd, rfl⟩
        · exact Or.inl hst
    · exact Or.inr ⟨a0, d0, List.mem_cons_of_mem _ ha0, hd0, he0, hi0⟩

/-- Processing one arrival with no eligible departure anywhere in the
input leaves the matcher state untouched. -/
theorem matchStep_no_eligible {deps : List Row} {a : Row}
    (h : ∀ d ∈ deps, eligibleFor a d = false)
    (st : List Turnaround × List Nat) : matchStep deps st a = st := by
  have hnil : deps.filter (eligibleFor a) = [] := by
    rw [List.filter_eq_nil_iff]
    intro d hd
    simp [h d hd]
  rw [matchStep, hnil]
  rfl

/-- Sample rows used to instantiate the general theorems: one arrival
at minute 0 and two later departures of the same aircraft and station,
at minutes 60 and 120. -/
def rowA : Row := ⟨0, "N1", "S", "XX", some 0⟩

def rowD1 : Row := ⟨10, "N1", "S", "XX", some 60⟩

def rowD2 : Row := ⟨11, "N1", "S", "XX", some 120⟩

/-- A departure row whose timestamp failed to parse. -/
def rowDNaT : Row := ⟨12, "N1", "S", "XX", none⟩

/-- C1: when an arrival is processed with at least one eligible departure
still unused, the step appends exactly one turnaround, built from an
unused eligible departure whose timestamp is minimal among all unused
eligible departures. -/
theorem matcher_earliest_eligible (deps : List Row)
    (st : List Turnaround × List Nat) (arr : Row)
    (h : ∃ d, d ∈ deps ∧ eligibleFor arr d = true ∧ d.idx ∉ st.2) :
    ∃ dep, dep ∈ deps ∧ eligibleFor arr dep = true ∧ dep.idx ∉ st.2 ∧
      (matchStep deps st arr).1 = st.1 ++ [mkTurnaround arr dep] ∧
      ∀ d ∈ deps, eligibleFor arr d = true → d.idx ∉ st.2 →
        key dep ≤ key d := by
  obtain ⟨d0, hd0, he0, hu0⟩ := h
  have hd0s : d0 ∈ sortByTs (deps.filter (eligibleFor arr)) :=
    mem_sortByTs.mpr (List.mem_filter.mpr ⟨hd0, he0⟩)
  cases hfind : findFirstUnused st.2 (sortByTs (deps.filter (eligibleFor arr))) with
  | none =>
    exact absurd (findFirstUnused_eq_none.mp hfind d0 hd0s) hu0
  | some dep =>
    obtain ⟨hmem, hnu, hmin⟩ := findFirstUnused_spec (sortByTs_sorted _) hfind
    have hdep : dep ∈ deps.filter (eligibleFor arr) := mem_sortByTs.mp hmem
    refine ⟨dep, List.mem_of_mem_filter hdep, List.of_mem_filter hdep, hnu, ?_, ?_⟩
    · rw [matchStep, hfind]
    · intro d hd he hu
      exact hmin d (mem_sortByTs.mpr (List.mem_filter.mpr ⟨hd, he⟩)) hu

/-- Witness for C1: the arrival at minute 0 with unused eligible
departures at minutes 60 and 120 (listed later-first in the input) is
matched, and the full matcher pairs it with the minute-60 departure. -/
theorem matcher_earliest_eligible_witness :
    (∃ dep, dep ∈ [rowD2, rowD1] ∧ eligibleFor rowA dep = true ∧
        dep.idx ∉ (([], []) : List Turnaround × List Nat).2 ∧
        (matchStep [rowD2, rowD1] ([], []) rowA).1 =
          (([], []) : List Turnaround × List Nat).1 ++ [mkTurnaround rowA dep] ∧
        ∀ d ∈ [rowD2, rowD1], eligibleFor rowA d = true →
          d.idx ∉ (([], []) : List Turnaround × List Nat).2 → key dep ≤ key d) ∧
    matchArrivals [rowA] [rowD2, rowD1] =
      [⟨"S", "N1", "XX", some 0, some 60⟩] :=
  ⟨matcher_earliest_eligible [rowD2, rowD1] ([], []) rowA
      ⟨rowD1, by decide, by decide, by decide⟩,
    by decide⟩

/-- C5: every turnaround the matcher produces has both timestamps
present, with the departure strictly after the arrival. -/
theorem turnaround_strict_order (arrs deps : List Row) (t : Turnaround)
    (h : t ∈ matchArrivals arrs deps) :
    ∃ x y, t.arrive = some x ∧ t.depart = some y ∧ x < y := by
  rcases mem_foldl_matched deps arrs ([], []) t h with h0 | ⟨a, d, _, _, he, rfl⟩
  · simp at h0
  · obtain ⟨x, y, hx, hy, hxy⟩ := eligibleFor_ts he
    exact ⟨x, y, hx, hy, hxy⟩

/-- Witness for C5 at a concrete matched input. -/
theorem turnaround_strict_order_witness :
    ∃ x y, (Turnaround.mk "S" "N1" "XX" (some 0) (some 60)).arrive = some x ∧
      (Turnaround.mk "S" "N1" "XX" (some 0) (some 60)).depart = some y ∧ x < y :=
  turnaround_strict_order [rowA] [rowD1] ⟨"S", "N1", "XX", some 0, some 60⟩
    (by decide)

/-- C7: an arrival with no eligible departure anywhere in the input
contributes nothing: the matcher neither fails nor changes any output,
and the result equals the run with that arrival removed. -/
theorem unmatched_arrival_dropped (l1 l2 deps : List Row) (a : Row)
    (h : ∀ d ∈ deps, eligibleFor a d = false) :
    matchFold (l1 ++ a :: l2) deps = matchFold (l1 ++ l2) deps ∧
    matchArrivals (l1 ++ a :: l2) deps = matchArrivals (l1 ++ l2) deps := by
  have hfold : matchFold (l1 ++ a :: l2) deps = matchFold (l1 ++ l2) deps := by
    unfold matchFold
    rw [List.foldl_append, List.foldl_append, List.foldl_cons,
      matchStep_no_eligible h]
  exact ⟨hfold, congrArg Prod.fst hfold⟩

/-- Witness for C7: an arrival followed only by a departure whose
timestamp failed to parse is dropped without effect. -/
theorem unmatched_arrival_dropped_witness :
    matchFold ([] ++ rowA :: []) [rowDNaT] = matchFold ([] ++ []) [rowDNaT] ∧
    matchArrivals ([] ++ rowA :: []) [rowDNaT] =
      matchArrivals ([] ++ []) [rowDNaT] :=
  unmatched_arrival_dropped [] [] [rowDNaT] rowA (by decide)

/-- C8: a day strictly between a turnaround's arrival day and departure
day receives no segment, in particular for stays spanning more than 24
hours. -/
theorem interior_day_no_segment (arrive depart d : Nat)
    (_hspan : arrive + minutesPerDay < depart)
    (h1 : dateOf arrive < d) (h2 : d < dateOf depart) :
    segmentFor arrive depart d = none := by
  have ha : dateOf arrive ≠ d := Nat.ne_of_lt h1
  have hd : dateOf depart ≠ d := (Nat.ne_of_lt h2).symm
  simp [segmentFor, ha, hd]

/-- Witness for C8: a stay from minute 600 of day 0 to minute 600 of
day 2 yields no segment for day 1. -/
theorem interior_day_no_segment_witness :
    segmentFor 600 3480 1 = none :=
  interior_day_no_segment 600 3480 1 (by decide) (by decide) (by decide)

/-! Day-boundary arithmetic. -/

theorem midnightOf_le_of_dateOf {t d : Nat} (h : dateOf t = d) :
    midnightOf d ≤ t := by
  subst h
  exact Nat.div_mul_le_self t minutesPerDay

theorem lt_midnightOf_succ_of_dateOf {t d : Nat} (h : dateOf t = d) :
    t < midnightOf (d + 1) := by
  subst h
  have h1 := Nat.div_add_mod t 1440
  have h2 : t % 1440 < 1440 := Nat.mod_lt _ (by norm_num)
  unfold midnightOf dateOf minutesPerDay
  omega

theorem midnightOf_succ (d : Nat) :
    midnightOf (d + 1) = midnightOf d + minutesPerDay :=
  Nat.succ_mul d minutesPerDay

/-- C2: the segmenter produces exactly one SAME_DAY segment with window
from arrival to departure when both dates equal the target day, exactly
one OVERNIGHT_ARRIVAL segment up to the following midnight when only the
arrival date matches, exactly one OVERNIGHT_DEPARTURE segment from
midnight when only the departure date matches, and nothing otherwise. -/
theorem segmenter_cases (arrive depart d : Nat) :
    (dateOf arrive = d ∧ dateOf depart = d →
      segmentFor arrive depart d =
        some ⟨SegKind.SAME_DAY, arrive, depart⟩) ∧
    (dateOf arrive = d ∧ dateOf depart ≠ d →
      segmentFor arrive depart d =
        some ⟨SegKind.OVERNIGHT_ARRIVAL, arrive, midnightOf (d + 1)⟩) ∧
    (dateOf arrive ≠ d ∧ dateOf depart = d →
      segmentFor arrive depart d =
        some ⟨SegKind.OVERNIGHT_DEPARTURE, midnightOf d, depart⟩) ∧
    (dateOf arrive ≠ d ∧ dateOf depart ≠ d →
      segmentFor arrive depart d = none) := by
  refine ⟨?_, ?_, ?_, ?_⟩ <;> intro h <;> simp [segmentFor, h.1, h.2]

/-- Witness for C2 on the spec's overnight example: arrival at 23:10 of
day 0, departure at 01:45 of day 1 (minutes 1390 and 1545). -/
theorem segmenter_cases_witness :
    segmentFor 1390 1545 0 =
      some ⟨SegKind.OVERNIGHT_ARRIVAL, 1390, midnightOf 1⟩ ∧
    segmentFor 1390 1545 1 =
      some ⟨SegKind.OVERNIGHT_DEPARTURE, midnightOf 1, 1545⟩ ∧
    segmentFor 1390 1545 2 = none :=
  ⟨(segmenter_cases 1390 1545 0).2.1 ⟨by decide, by decide⟩,
    (segmenter_cases 1390 1545 1).2.2.1 ⟨by decide, by decide⟩,
    (segmenter_cases 1390 1545 2).2.2.2 ⟨by decide, by decide⟩⟩

/-- Counterexample to C3: the turnaround arriving at minute 1380 (23:00
of day 0) and departing at minute 1440 (exactly midnight starting day 1)
satisfies depart > arrive, yet segmenting day 1 yields an
OVERNIGHT_DEPARTURE segment whose window is the empty interval
[1440, 1440), violating the claimed strict bound
window_start < window_end. -/
theorem segment_window_invariant_cex :
    1380 < 1440 ∧
    segmentFor 1380 1440 1 =
      some ⟨SegKind.OVERNIGHT_DEPARTURE, 1440, 1440⟩ ∧
    ¬ (1440 < 1440) := by decide

/-- C3 amended: every segment produced for target day d satisfies
day_start ≤ window_start ≤ window_end ≤ day_start + 24h; the strict
inequality window_start < window_end fails exactly when the departure
falls on midnight starting d. -/
theorem segment_window_bounds (arrive depart d : Nat) (hlt : arrive < depart)
    (s : DaySegment) (h : segmentFor arrive depart d = some s) :
    midnightOf d ≤ s.window_start ∧ s.window_start ≤ s.window_end ∧
      s.window_end ≤ midnightOf d + minutesPerDay := by
  unfold segmentFor at h
  split_ifs at h with h1 h2 h3
  · cases Option.some.inj h
    exact ⟨midnightOf_le_of_dateOf h1.1, Nat.le_of_lt hlt,
      by rw [← midnightOf_succ]; exact Nat.le_of_lt (lt_midnightOf_succ_of_dateOf h1.2)⟩
  · cases Option.some.inj h
    exact ⟨midnightOf_le_of_dateOf h2, Nat.le_of_lt (lt_midnightOf_succ_of_dateOf h2),
      Nat.le_of_eq (midnightOf_succ d)⟩
  · cases Option.some.inj h
    exact ⟨Nat.le_refl _, midnightOf_le_of_dateOf h3,
      by rw [← midnightOf_succ]; exact Nat.le_of_lt (lt_midnightOf_succ_of_dateOf h3)⟩

/-- Witness for the amended C3 on a same-day stay from minute 480 to
minute 690 of day 0. -/
theorem segment_window_bounds_witness :
    midnightOf 0 ≤ (DaySegment.mk SegKind.SAME_DAY 480 690).window_start ∧
    (DaySegment.mk SegKind.SAME_DAY 480 690).window_start ≤
      (DaySegment.mk SegKind.SAME_DAY 480 690).window_end ∧
    (DaySegment.mk SegKind.SAME_DAY 480 690).window_end ≤
      midnightOf 0 + minutesPerDay :=
  segment_window_bounds 480 690 0 (by decide) ⟨SegKind.SAME_DAY, 480, 690⟩
    (by decide)

/-- Generalized maximality invariant: every arrival in the remaining
input either shows up matched in the final list or finds all of its
eligible departures claimed in the final used set. -/
theorem foldl_maximal (deps : List Row) :
    ∀ (arrs : List Row) (st : List Turnaround × List Nat) (a : Row),
      a ∈ arrs →
      (∃ t ∈ (arrs.foldl (matchStep deps) st).1,
        t.station = a.station ∧ t.ac = a.ac ∧ t.arrive = a.ts) ∨
      ∀ d ∈ deps, eligibleFor a d = true →
        d.idx ∈ (arrs.foldl (matchStep deps) st).2 := by
  intro arrs
  induction arrs with
  | nil => intro st a h; simp at h
  | cons b tl ih =>
    intro st a ha
    rcases List.mem_cons.mp ha with rfl | ha
    · rw [List.foldl_cons]
      cases hfind : findFirstUnused st.2 (sortByTs (deps.filter (eligibleFor a))) with
      | some dep =>
        left
        refine ⟨mkTurnaround a dep, ?_, rfl, rfl, rfl⟩
        apply foldl_matched_mono
        rw [matchStep, hfind]
        exact List.mem_append_right _ (List.mem_singleton_self _)
      | none =>
        right
        intro d hd he
        have hu : d.idx ∈ st.2 :=
          findFirstUnused_eq_none.mp hfind d
            (mem_sortByTs.mpr (List.mem_filter.mpr ⟨hd, he⟩))
        apply foldl_used_mono
        rw [matchStep, hfind]
        exact hu
    · rw [List.foldl_cons]
      exact ih (matchStep deps st b) a ha

/-- C6: the matching is maximal: every input arrival is either matched
in the output, or every departure eligible for it is claimed in the
final used set, so no pair could be added without removing another. -/
theorem matcher_maximal (arrs deps : List Row) (a : Row) (ha : a ∈ arrs) :
    (∃ t ∈ matchArrivals arrs deps,
      t.station = a.station ∧ t.ac = a.ac ∧ t.arrive = a.ts) ∨
    ∀ d ∈ deps, eligibleFor a d = true →
      d.idx ∈ usedDepartures arrs deps :=
  foldl_maximal deps arrs ([], []) a ha

/-- Witness for C6 at a concrete input with one arrival and one eligible
departure. -/
theorem matcher_maximal_witness :
    (∃ t ∈ matchArrivals [rowA] [rowD1],
      t.station = rowA.station ∧ t.ac = rowA.ac ∧ t.arrive = rowA.ts) ∨
    ∀ d ∈ [rowD1], eligibleFor rowA d = true →
      d.idx ∈ usedDepartures [rowA] [rowD1] :=
  matcher_maximal [rowA] [rowD1] rowA (by decide)

/-- Matching key of an arrival row: station, aircraft and timestamp. -/
def arrivalKey (r : Row) : String × String × Option Nat :=
  (r.station, r.ac, r.ts)

/-- The corresponding key of a produced turnaround. -/
def turnKey (t : Turnaround) : String × String × Option Nat :=
  (t.station, t.ac, t.arrive)

/-- The matching pass only ever appends to the `matched` list, one
record per arrival, in the arrivals' input order. -/
theorem foldl_matched_appendix (deps : List Row) :
    ∀ (arrs : List Row) (st : List Turnaround × List Nat),
      ∃ rest, (arrs.foldl (matchStep deps) st).1 = st.1 ++ rest ∧
        List.Sublist (rest.map turnKey) (arrs.map arrivalKey) := by
  intro arrs
  induction arrs with
  | nil => intro st; exact ⟨[], (List.append_nil _).symm, List.nil_sublist _⟩
  | cons a tl ih =>
    intro st
    rw [List.foldl_cons]
    cases hfind : findFirstUnused st.2 (sortByTs (deps.filter (eligibleFor a))) with
    | none =>
      have hstep : matchStep deps st a = st := by rw [matchStep, hfind]
      rw [hstep]
      obtain ⟨rest, h1, h2⟩ := ih st
      exact ⟨rest, h1, List.Sublist.cons _ h2⟩
    | some dep =>
      have hstep : matchStep deps st a =
          (st.1 ++ [mkTurnaround a dep], dep.idx :: st.2) := by
        rw [matchStep, hfind]
      rw [hstep]
      obtain ⟨rest, h1, h2⟩ := ih (st.1 ++ [mkTurnaround a dep], dep.idx :: st.2)
      refine ⟨mkTurnaround a dep :: rest, ?_, ?_⟩
      · rw [h1]
        simp
      · rw [List.map_cons, List.map_cons]
        exact List.Sublist.cons₂ _ h2

/-- C9: the output preserves arrival input order: the keys of the
produced turnarounds form a subsequence of the keys of the input
arrivals, taken in input order. -/
theorem output_preserves_arrival_order (arrs deps : List Row) :
    List.Sublist ((matchArrivals arrs deps).map turnKey)
      (arrs.map arrivalKey) := by
  obtain ⟨rest, h1, h2⟩ := foldl_matched_appendix deps arrs ([], [])
  unfold matchArrivals matchFold
  rw [h1]
  simpa using h2

/-- The departure timestamp+aircraft+station combination of an input
departure row. -/
def rowDepKey (d : Row) : Option Nat × String × String :=
  (d.ts, d.ac, d.station)

/-- The departure timestamp+aircraft+station combination carried by a
produced turnaround. -/
def turnDepKey (t : Turnaround) : Option Nat × String × String :=
  (t.depart, t.ac, t.station)

/-- Duplicate-combination scenario: two arrivals of the same aircraft at
the same station, and two distinct departure rows carrying the identical
timestamp+aircraft+station combination. -/
def dupA1 : Row := ⟨0, "N1", "S", "XX", some 10⟩

def dupA2 : Row := ⟨1, "N1", "S", "XX", some 20⟩

def dupD1 : Row := ⟨101, "N1", "S", "XX", some 100⟩

def dupD2 : Row := ⟨102, "N1", "S", "XX", some 100⟩

/-- Counterexample to C4: the matcher tracks usage by row label
(`dep.name`), not by value combination, so two duplicate departure rows
with the same timestamp+aircraft+station combination are claimed by two
different arrivals, and that combination appears in two Turnarounds. -/
theorem departure_combo_reuse_cex :
    (matchArrivals [dupA1, dupA2] [dupD1, dupD2]).countP
        (fun t => turnDepKey t == (some 100, "N1", "S")) = 2 ∧
    ¬ ((matchArrivals [dupA1, dupA2] [dupD1, dupD2]).countP
        (fun t => turnDepKey t == (some 100, "N1", "S")) ≤ 1) := by
  decide

/-- Generalized claiming invariant: the matched list is, combination for
combination, drawn from a sub-multiset of the input departure rows, all
of whose labels are in the used set. -/
theorem foldl_claimed (deps : List Row) :
    ∀ (arrs : List Row) (st : List Turnaround × List Nat),
      (∃ ds : List Row, List.Subperm ds deps ∧
        st.1.map turnDepKey = ds.map rowDepKey ∧
        ∀ d ∈ ds, d.idx ∈ st.2) →
      ∃ ds : List Row, List.Subperm ds deps ∧
        (arrs.foldl (matchStep deps) st).1.map turnDepKey = ds.map rowDepKey ∧
        ∀ d ∈ ds, d.idx ∈ (arrs.foldl (matchStep deps) st).2 := by
  intro arrs
  induction arrs with
  | nil => intro st h; exact h
  | cons a tl ih =>
    intro st h
    rw [List.foldl_cons]
    apply ih
    obtain ⟨ds, hsub, hmap, hused⟩ := h
    cases hfind : findFirstUnused st.2 (sortByTs (deps.filter (eligibleFor a))) with
    | none =>
      have hstep : matchStep deps st a = st := by rw [matchStep, hfind]
      rw [hstep]
      exact ⟨ds, hsub, hmap, hused⟩
    | some dep =>
      have hstep : matchStep deps st a =
          (st.1 ++ [mkTurnaround a dep], dep.idx :: st.2) := by
        rw [matchStep, hfind]
      rw [hstep]
      obtain ⟨hmem, hnu, _⟩ := findFirstUnused_spec (sortByTs_sorted _) hfind
      have hdf : dep ∈ deps.filter (eligibleFor a) := mem_sortByTs.mp hmem
      have hdd : dep ∈ deps := List.mem_of_mem_filter hdf
      have hel : eligibleFor a dep = true := List.of_mem_filter hdf
      have hnotin : dep ∉ ds := fun hmemds => hnu (hused dep hmemds)
      refine ⟨ds ++ [dep], ?_, ?_, ?_⟩
      · exact (List.perm_append_singleton dep ds).subperm_right.mpr
          (List.cons_subperm_of_not_mem_of_mem hnotin hdd hsub)
      · rw [List.map_append, hmap, List.map_append]
        obtain ⟨hac, hstn⟩ := eligibleFor_fields hel
        simp [turnDepKey, rowDepKey, mkTurnaround, hac, hstn]
      · intro d hd
        rcases List.mem_append.mp hd with hd | hd
        · exact List.mem_cons_of_mem _ (hused d hd)
        · rcases List.mem_singleton.mp hd with rfl
          exact List.mem_cons_self _ _

/-- C4 amended: a departure timestamp+aircraft+station combination
appears in at most as many Turnarounds as there are departure rows
carrying that combination in the input; in particular at most once when
the combination occurs on a single input row. -/
theorem departure_combo_multiplicity (arrs deps : List Row)
    (c : Option Nat × String × String) :
    (matchArrivals arrs deps).countP (fun t => turnDepKey t == c) ≤
      deps.countP (fun d => rowDepKey d == c) := by
  obtain ⟨ds, hsub, hmap, _⟩ := foldl_claimed deps arrs ([], [])
    ⟨[], List.nil_subperm, rfl, by simp⟩
  have h1 : ((matchArrivals arrs deps).map turnDepKey).countP
        (fun k => k == c) ≤ (ds.map rowDepKey).countP (fun k => k == c) := by
    have hmap' : (matchArrivals arrs deps).map turnDepKey =
        ds.map rowDepKey := hmap
    rw [hmap']
  have h2 : (ds.map rowDepKey).countP (fun k => k == c) ≤
      (deps.map rowDepKey).countP (fun k => k == c) := by
    rw [List.countP_map, List.countP_map]
    exact List.Subperm.countP_le _ hsub
  have h3 := Nat.le_trans h1 h2
  rw [List.countP_map, List.countP_map] at h3
  exact h3

/-- A missing timestamp on the left makes the strict comparison false. -/
theorem tsLt_none_left (x : Option Nat) : tsLt none x = false := by
  cases x <;> rfl

/-- C10: unparseable timestamps are harmless: every produced turnaround
carries present timestamps, a departure row with a missing timestamp is
never claimed (its label never enters the used set, given distinct row
labels), and an arrival row with a missing timestamp leaves the state
untouched. -/
theorem nat_timestamps_never_matched (arrs deps : List Row)
    (hidx : (deps.map Row.idx).Nodup) :
    (∀ t ∈ matchArrivals arrs deps, t.arrive.isSome ∧ t.depart.isSome) ∧
    (∀ d ∈ deps, d.ts = none → d.idx ∉ usedDepartures arrs deps) ∧
    (∀ (st : List Turnaround × List Nat) (a : Row), a.ts = none →
      matchStep deps st a = st) := by
  refine ⟨?_, ?_, ?_⟩
  · intro t ht
    rcases mem_foldl_matched deps arrs ([], []) t ht with h0 | ⟨a, d, _, _, he, rfl⟩
    · simp at h0
    · obtain ⟨x, y, hx, hy, _⟩ := eligibleFor_ts he
      exact ⟨by simp [mkTurnaround, hx], by simp [mkTurnaround, hy]⟩
  · intro d hd hts hmem
    rcases mem_foldl_used deps arrs ([], []) d.idx hmem with h0 | ⟨a, d', _, hd', he', hi'⟩
    · simp at h0
    · obtain ⟨x, y, _, hy, _⟩ := eligibleFor_ts he'
      have hdd : d' = d := List.inj_on_of_nodup_map hidx hd' hd hi'
      rw [hdd, hts] at hy
      cases hy
  · intro st a hts
    apply matchStep_no_eligible
    intro d hd
    simp [eligibleFor, hts, tsLt_none_left]

/-- Witness for C10 at a concrete input with one arrival and one
departure row whose timestamp failed to parse. -/
theorem nat_timestamps_never_matched_witness :
    (∀ t ∈ matchArrivals [rowA] [rowDNaT], t.arrive.isSome ∧ t.depart.isSome) ∧
    (∀ d ∈ [rowDNaT], d.ts = none → d.idx ∉ usedDepartures [rowA] [rowDNaT]) ∧
    (∀ (st : List Turnaround × List Nat) (a : Row), a.ts = none →
      matchStep [rowDNaT] st a = st) :=
  nat_timestamps_never_matched [rowA] [rowDNaT] (by decide)

end GroundTime
